import Mathlib

/-!
# Anderson Acceleration: a verification development

Shallow embedding of the `AndersonAcceleration` routine of the repository
`joshnguyen99/anderson_acceleration`.  The repository ships the algorithm in
`aa.py`, documented in its `README.md`; since `aa.py` itself is not among the
available sources, the accelerator is modelled from the specification
(`spec.md` §3–§4), faithful to its words: a bounded FIFO history of iterates,
consecutive-difference residuals, the regularized Gram system
`G = FᵀF + λI`, `G z = 1`, `α = z / sum z`, and the extrapolated output
`x̄ = Σ α_i y_i`.  Real-vector arithmetic is embedded over `ℚ` so that every
definition is executable.
-/

namespace AndersonAccel

/-- A numeric vector, embedded as a list of rationals. -/
abbrev Vec := List ℚ

/-- Modelled from the spec: the error taxonomy of `spec.md` §7 for the missing
`aa.py` (`ConfigurationError` at construction, `ShapeError` on dimension
mismatch; numerical degeneracy is recovered, never surfaced). -/
inductive AAErr : Type where
  | configurationError : AAErr
  | shapeError : AAErr
  deriving DecidableEq

/-- Modelled from the spec: the accelerator state of `spec.md` §3 for the
missing `aa.py` — hyperparameters fixed at construction plus the bounded
`history` of previously observed raw iterates (oldest first). -/
structure AAState : Type where
  window_size : ℕ
  reg : ℚ
  beta : ℚ
  history : List Vec
  deriving DecidableEq

/-- Componentwise difference of two vectors. -/
def vsub (a b : Vec) : Vec := List.zipWith (fun x y => x - y) a b

/-- Modelled from the spec: consecutive-difference residuals — for each
consecutive pair `(y_k, y_(k+1))` of stored iterates the residual is
`y_(k+1) − y_k`, oldest first. -/
def residuals (hist : List Vec) : List Vec := List.zipWith vsub hist.tail hist

/-- The number of residual columns (one fewer than the stored iterates). -/
def residualCount (hist : List Vec) : ℕ := (residuals hist).length

/-- The ambient dimension `d`, established by the oldest stored iterate. -/
def vdim (hist : List Vec) : ℕ := (hist.headD []).length

/-- The residual matrix built from an explicit list of residual columns `rs`
with explicit dimensions: entry `(i, j)` is coordinate `i` of residual `j`. -/
def FmatAux (rs : List Vec) (d p : ℕ) : Matrix (Fin d) (Fin p) ℚ :=
  Matrix.of fun i j => (rs.getD (j : ℕ) []).getD (i : ℕ) 0

/-- The regularized Gram matrix `G = FᵀF + λI` over explicit residual columns. -/
def gramAux (rs : List Vec) (reg : ℚ) (d p : ℕ) : Matrix (Fin p) (Fin p) ℚ :=
  Matrix.transpose (FmatAux rs d p) * FmatAux rs d p +
    reg • (1 : Matrix (Fin p) (Fin p) ℚ)

/-- Modelled from the spec: the residual matrix `F` whose columns are the
consecutive-difference residuals. -/
def Fmat (hist : List Vec) : Matrix (Fin (vdim hist)) (Fin (residualCount hist)) ℚ :=
  FmatAux (residuals hist) (vdim hist) (residualCount hist)

/-- Modelled from the spec: the regularized Gram matrix `G = FᵀF + λI`. -/
def gramMatrix (hist : List Vec) (reg : ℚ) :
    Matrix (Fin (residualCount hist)) (Fin (residualCount hist)) ℚ :=
  gramAux (residuals hist) reg (vdim hist) (residualCount hist)

/-- Dot product of two rational lists. -/
def dotL (a b : List ℚ) : ℚ := (List.zipWith (fun x y => x * y) a b).sum

/-- Scalar multiple of a rational list. -/
def smulL (c : ℚ) (a : List ℚ) : List ℚ := a.map (fun x => c * x)

/-- Transpose of a list-of-rows rational matrix. -/
def transposeL (M : List (List ℚ)) : List (List ℚ) :=
  (List.range ((M.headD []).length)).map (fun j => M.map (fun r => r.getD j 0))

/-- Product of two list-of-rows rational matrices. -/
def matMulL (A B : List (List ℚ)) : List (List ℚ) :=
  A.map (fun r => (transposeL B).map (fun c => dotL r c))

/-- Matrix–vector product for list-of-rows matrices. -/
def matVecL (M : List (List ℚ)) (v : List ℚ) : List ℚ := M.map (fun r => dotL r v)

/-- Find a row with a nonzero entry in column `c`; return it and the rest. -/
def pivotRow (c : ℕ) : List (List ℚ) → Option (List ℚ × List (List ℚ))
  | [] => none
  | r :: rs =>
    if r.getD c 0 ≠ 0 then some (r, rs)
    else (pivotRow c rs).map (fun pr => (pr.1, r :: pr.2))

/-- Reduced row echelon form by Gauss–Jordan elimination over the given
columns; returns the nonzero rows paired with their pivot columns, ordered by
pivot column. -/
def rrefGo : List ℕ → List (List ℚ) → List (List ℚ × ℕ)
  | [], _ => []
  | c :: cs, rows =>
    match pivotRow c rows with
    | none => rrefGo cs rows
    | some pr =>
      let pn := smulL (pr.1.getD c 0)⁻¹ pr.1
      let rest2 := pr.2.map (fun r => vsub r (smulL (r.getD c 0) pn))
      let below := rrefGo cs rest2
      let pn2 := below.foldl (fun acc rp => vsub acc (smulL (acc.getD rp.2 0) rp.1)) pn
      (pn2, c) :: below

/-- The `n × n` identity as a list-of-rows matrix. -/
def idMat (n : ℕ) : List (List ℚ) :=
  (List.range n).map (fun i => (List.range n).map (fun j => if i = j then 1 else 0))

/-- Inverse of a (square, invertible) list-of-rows matrix by Gauss–Jordan
elimination on the augmented matrix; falls back to the identity when the
input is singular (never reached on the full-rank blocks it is applied to). -/
def invL (M : List (List ℚ)) : List (List ℚ) :=
  let n := M.length
  let aug := (M.zip (idMat n)).map (fun rc => rc.1 ++ rc.2)
  let R := rrefGo (List.range n) aug
  if R.length = n then R.map (fun rp => rp.1.drop n) else idMat n

/-- Modelled from the spec: the Moore–Penrose pseudo-inverse used as the
least-squares fallback when `G` is singular (`aa.py` is not among the
sources).  Computed by the rank factorization `A = B C` read off the reduced
row echelon form, with `A⁺ = Cᵀ (C Cᵀ)⁻¹ (Bᵀ B)⁻¹ Bᵀ`; a rank-zero matrix
has pseudo-inverse zero. -/
def pinvL (A : List (List ℚ)) : List (List ℚ) :=
  let m := (A.headD []).length
  let n := A.length
  let R := rrefGo (List.range m) A
  if R.isEmpty then (List.range m).map (fun _ => (List.range n).map (fun _ => (0 : ℚ)))
  else
    let C := R.map (fun rp => rp.1)
    let B := A.map (fun row => (R.map (fun rp => rp.2)).map (fun c => row.getD c 0))
    let Ct := transposeL C
    let Bt := transposeL B
    matMulL (matMulL (matMulL Ct (invL (matMulL C Ct))) (invL (matMulL Bt B))) Bt

/-- Minimum-norm least-squares solution `A⁺ b`. -/
def pinvApply (A : List (List ℚ)) (b : List ℚ) : List ℚ := matVecL (pinvL A) b

/-- Modelled from the spec: the pseudo-inverse fallback of the weight solve,
bridging the typed Gram matrix to the list-level pseudo-inverse. -/
def fallbackSolve {p : ℕ} (G : Matrix (Fin p) (Fin p) ℚ) (b : Fin p → ℚ) : Fin p → ℚ :=
  fun j =>
    (pinvApply ((List.finRange p).map (fun i => (List.finRange p).map (fun k => G i k)))
      ((List.finRange p).map b)).getD (j : ℕ) 0

/-- Modelled from the spec: solve `G z = b` by an exact linear solve (Cramer)
when `G` is nonsingular, falling back to the least-squares/pseudo-inverse
solution when `G` is singular. -/
def solveOrFallback {p : ℕ} (G : Matrix (Fin p) (Fin p) ℚ) (b : Fin p → ℚ) : Fin p → ℚ :=
  if G.det = 0 then fallbackSolve G b else G.det⁻¹ • Matrix.cramer G b

/-- The all-ones right-hand side of the weight system. -/
def onesV (p : ℕ) : Fin p → ℚ := fun _ => 1

/-- The unnormalized weights over explicit residual columns and dimensions. -/
def zAux (rs : List Vec) (reg : ℚ) (d p : ℕ) : Fin p → ℚ :=
  solveOrFallback (gramAux rs reg d p) (onesV p)

/-- The normalized combination weights `α = z / sum z` over explicit data. -/
def alphaAux (rs : List Vec) (reg : ℚ) (d p : ℕ) : Fin p → ℚ :=
  fun j => zAux rs reg d p j / ∑ k, zAux rs reg d p k

/-- The extrapolated output over explicit residual columns `rs` and iterates
`ys` (the most recent `p` stored iterates, oldest to newest). -/
def extrapolateAux (rs ys : List Vec) (reg : ℚ) (d p : ℕ) : Vec :=
  (List.range d).map
    (fun i => ∑ j, alphaAux rs reg d p j * ((ys.getD (j : ℕ) []).getD i 0))

/-- Modelled from the spec: the unnormalized weights `z` solving `G z = 1`. -/
def zVec (hist : List Vec) (reg : ℚ) : Fin (residualCount hist) → ℚ :=
  zAux (residuals hist) reg (vdim hist) (residualCount hist)

/-- Modelled from the spec: the combination weights `α = z / sum z`. -/
def alphaWeights (hist : List Vec) (reg : ℚ) : Fin (residualCount hist) → ℚ :=
  alphaAux (residuals hist) reg (vdim hist) (residualCount hist)

/-- Modelled from the spec: the extrapolated output `x̄ = Σ α_i y_i` over the
most recent `len(history) − 1` stored iterates, oldest to newest. -/
def extrapolate (hist : List Vec) (reg : ℚ) : Vec :=
  extrapolateAux (residuals hist) hist.tail reg (vdim hist) (residualCount hist)

/-- Modelled from the spec: FIFO eviction — drop the oldest entry once the
capacity `window_size + 1` is exceeded. -/
def evict (w : ℕ) (h : List Vec) : List Vec := if w + 1 < h.length then h.tail else h

/-- Modelled from the spec: append the new raw iterate to the history,
evicting the oldest entry when over capacity. -/
def push (s : AAState) (v : Vec) : AAState :=
  { s with history := evict s.window_size (s.history ++ [v]) }

/-- Modelled from the spec: the public `accelerate` operation of `spec.md`
§4.1 (called `apply` in the repository's README).  First call passes the
iterate through while recording it; later calls check the dimension, update
the history, and return the extrapolated combination. -/
def accelerate (s : AAState) (v : Vec) : Except AAErr (AAState × Vec) :=
  match s.history with
  | [] => Except.ok (push s v, v)
  | y :: _ =>
    if v.length = y.length then
      Except.ok (push s v, extrapolate (push s v).history s.reg)
    else Except.error AAErr.shapeError

/-- Modelled from the spec: the validating constructor — `window_size ≥ 1`,
`regularization ≥ 0`, `0 ≤ mixing_parameter ≤ 1`, else `ConfigurationError`. -/
def mkAA (w : ℤ) (reg : ℚ) (beta : ℚ) : Except AAErr AAState :=
  if w < 1 ∨ reg < 0 ∨ beta < 0 ∨ 1 < beta then Except.error AAErr.configurationError
  else Except.ok ⟨w.toNat, reg, beta, []⟩

/-- Run the accelerator over a list of raw iterates, collecting the outputs. -/
def runAA (s : AAState) : List Vec → Except AAErr (AAState × List Vec)
  | [] => Except.ok (s, [])
  | v :: vs =>
    match accelerate s v with
    | Except.error e => Except.error e
    | Except.ok s1 =>
      match runAA s1.1 vs with
      | Except.error e => Except.error e
      | Except.ok s2 => Except.ok (s2.1, s1.2 :: s2.2)

/-- The last `k` elements of a list (all of it when it is shorter). -/
def lastN (k : ℕ) (l : List Vec) : List Vec := l.drop (l.length - k)

/-- Modelled from the spec: the README's default window size (`window_size=5`). -/
def defaultWindowSize : ℤ := 5

/-- Modelled from the spec: the README's default regularization (`reg=0`). -/
def defaultReg : ℚ := 0

/-- Modelled from the spec: the default mixing parameter (`spec.md` §3: "may
default to 1"). -/
def defaultMixing : ℚ := 1

/-- Modelled from the spec: construction with the `reg` argument omitted. -/
def mkOmitReg (w : ℤ) : Except AAErr AAState := mkAA w defaultReg defaultMixing

/-- Modelled from the spec: construction with the `window_size` argument
omitted. -/
def mkOmitWindow (reg : ℚ) : Except AAErr AAState := mkAA defaultWindowSize reg defaultMixing

/-- Run a whole sequence of calls starting from a construction result. -/
def runFrom (es : Except AAErr AAState) (vs : List Vec) : Except AAErr (AAState × List Vec) :=
  match es with
  | Except.error e => Except.error e
  | Except.ok s => runAA s vs


/-! ### General helper lemmas -/

/-- Inversion of a successful construction. -/
theorem mkAA_ok {w : ℤ} {r b : ℚ} {s : AAState} (h : mkAA w r b = Except.ok s) :
    1 ≤ w ∧ 0 ≤ r ∧ 0 ≤ b ∧ b ≤ 1 ∧ s = ⟨w.toNat, r, b, []⟩ := by
  unfold mkAA at h
  split at h
  · exact absurd h (by simp)
  · rename_i hcond
    push_neg at hcond
    injection h with h'
    exact ⟨hcond.1, hcond.2.1, hcond.2.2.1, hcond.2.2.2, h'.symm⟩

/-- The length of the extrapolated output is the ambient dimension. -/
theorem extrapolate_length (hist : List Vec) (reg : ℚ) :
    (extrapolate hist reg).length = vdim hist := by
  simp [extrapolate, extrapolateAux]

theorem evict_subset (w : ℕ) (h : List Vec) : evict w h ⊆ h := by
  unfold evict
  split
  · exact List.tail_subset h
  · exact fun a ha => ha

theorem vdim_of_all (l : List Vec) (n : ℕ) (hne : l ≠ [])
    (hall : ∀ y ∈ l, y.length = n) : vdim l = n := by
  cases l with
  | nil => exact absurd rfl hne
  | cons y t => exact hall y (List.mem_cons_self y t)

theorem getD_map_range (f : ℕ → ℚ) (d i : ℕ) (h : i < d) :
    ((List.range d).map f).getD i 0 = f i := by
  rw [List.getD_eq_getElem?_getD, List.getElem?_map, List.getElem?_range h]
  rfl

theorem residuals_length (hist : List Vec) :
    (residuals hist).length = hist.length - 1 := by
  simp [residuals]

theorem residuals_getD (hist : List Vec) (k : ℕ) (hk : k < hist.length - 1) :
    (residuals hist).getD k [] = vsub (hist.getD (k+1) []) (hist.getD k []) := by
  have hlen : k < (residuals hist).length := by rw [residuals_length]; exact hk
  have h2 : k < hist.length := by omega
  have h3 : k + 1 < hist.length := by omega
  rw [List.getD_eq_getElem _ _ hlen, List.getD_eq_getElem _ _ h3, List.getD_eq_getElem _ _ h2]
  have hlen2 : k < (List.zipWith vsub hist.tail hist).length := hlen
  show (List.zipWith vsub hist.tail hist)[k] = _
  rw [List.getElem_zipWith]
  congr 1
  rw [List.getElem_tail]

/-! ### Window (FIFO) helper lemmas -/

theorem lastN_of_le (k : ℕ) (l : List Vec) (h : l.length ≤ k) : lastN k l = l := by
  unfold lastN
  rw [Nat.sub_eq_zero_of_le h, List.drop_zero]

theorem lastN_length_le (k : ℕ) (l : List Vec) : (lastN k l).length ≤ k := by
  unfold lastN
  rw [List.length_drop]
  omega

theorem lastN_subset (k : ℕ) (l : List Vec) : lastN k l ⊆ l := by
  unfold lastN
  exact List.drop_subset _ _

theorem evict_eq_lastN (w : ℕ) (h : List Vec) (v : Vec) (hle : h.length ≤ w + 1) :
    evict w (h ++ [v]) = lastN (w + 1) (h ++ [v]) := by
  unfold evict lastN
  rw [List.length_append]
  simp only [List.length_cons, List.length_nil]
  by_cases hc : w + 1 < h.length + 1
  · rw [if_pos hc]
    have he : h.length + 1 - (w + 1) = 1 := by omega
    rw [he, List.drop_one]
  · rw [if_neg hc]
    have he : h.length + 1 - (w + 1) = 0 := by omega
    rw [he, List.drop_zero]

theorem lastN_append_lastN (k : ℕ) (l m : List Vec) :
    lastN k (lastN k l ++ m) = lastN k (l ++ m) := by
  unfold lastN
  rcases le_or_lt l.length k with hlk | hkl
  · rw [Nat.sub_eq_zero_of_le hlk, List.drop_zero]
  · have hinner : (List.drop (l.length - k) l).length = k := by
      rw [List.length_drop]; omega
    rw [List.length_append, List.length_append, hinner]
    rcases le_or_lt m.length k with hmk | hkm
    · have e1 : k + m.length - k = m.length := by omega
      have e2 : l.length + m.length - k = (l.length - k) + m.length := by omega
      rw [e1, e2, List.drop_append_of_le_length (by omega),
          List.drop_append_of_le_length (by omega), List.drop_drop]
    · have e1 : k + m.length - k = k + (m.length - k) := by omega
      have e2 : l.length + m.length - k = l.length + (m.length - k) := by omega
      rw [e1, e2]
      calc List.drop (k + (m.length - k)) (List.drop (l.length - k) l ++ m)
          = List.drop ((List.drop (l.length - k) l).length + (m.length - k))
              (List.drop (l.length - k) l ++ m) := by rw [hinner]
        _ = List.drop (m.length - k) m := List.drop_append _
        _ = List.drop (l.length + (m.length - k)) (l ++ m) := (List.drop_append _).symm

/-- Main run invariant: with dimension-uniform inputs the run succeeds, the
window size is preserved, and the final history is exactly the most recent
`window_size + 1` elements of old history plus inputs (FIFO suffix). -/
theorem runAA_window (d : ℕ) : ∀ (vs : List Vec) (s : AAState),
    s.history.length ≤ s.window_size + 1 →
    (∀ y ∈ s.history, y.length = d) →
    (∀ v ∈ vs, v.length = d) →
    ∃ s' outs, runAA s vs = Except.ok (s', outs)
      ∧ s'.window_size = s.window_size
      ∧ s'.history = lastN (s.window_size + 1) (s.history ++ vs)
      ∧ (∀ y ∈ s'.history, y.length = d) := by
  intro vs
  induction vs with
  | nil =>
    intro s hlen hdims _
    refine ⟨s, [], rfl, rfl, ?_, hdims⟩
    rw [List.append_nil, lastN_of_le _ _ hlen]
  | cons v vs ih =>
    intro s hlen hdims hvs
    have hv : v.length = d := hvs v (List.mem_cons_self v vs)
    obtain ⟨W, R, B, H⟩ := s
    have hpushhist : (push ⟨W, R, B, H⟩ v).history = lastN (W + 1) (H ++ [v]) := by
      show evict W (H ++ [v]) = lastN (W + 1) (H ++ [v])
      exact evict_eq_lastN W H v hlen
    have hpushlen : (push ⟨W, R, B, H⟩ v).history.length ≤ W + 1 := by
      rw [hpushhist]; exact lastN_length_le _ _
    have hpushdims : ∀ y ∈ (push ⟨W, R, B, H⟩ v).history, y.length = d := by
      intro y hy
      rw [hpushhist] at hy
      rcases List.mem_append.mp (lastN_subset _ _ hy) with h1 | h2
      · exact hdims y h1
      · simp at h2; rw [h2]; exact hv
    have hvs' : ∀ u ∈ vs, u.length = d := fun u hu => hvs u (List.mem_cons_of_mem v hu)
    obtain ⟨s', outs, hrun, hw, hhist, hdims'⟩ := ih (push ⟨W, R, B, H⟩ v) hpushlen hpushdims hvs'
    rw [show (push ⟨W, R, B, H⟩ v).window_size = W from rfl] at hw hhist
    rw [hpushhist] at hhist
    have hfinal : s'.history = lastN (W + 1) (H ++ v :: vs) := by
      rw [hhist, lastN_append_lastN, List.append_assoc]
      rfl
    cases H with
    | nil =>
      refine ⟨s', v :: outs, ?_, hw, hfinal, hdims'⟩
      show (match accelerate ⟨W, R, B, []⟩ v with
        | Except.error e => Except.error e
        | Except.ok s1 =>
          match runAA s1.1 vs with
          | Except.error e => Except.error e
          | Except.ok s2 => Except.ok (s2.1, s1.2 :: s2.2)) = _
      show (match runAA (push ⟨W, R, B, []⟩ v) vs with
          | Except.error e => Except.error e
          | Except.ok s2 => Except.ok (s2.1, v :: s2.2)) = _
      rw [hrun]
    | cons y t =>
      have hy : v.length = y.length := by
        rw [hv, (hdims y (List.mem_cons_self y t)).symm]
      refine ⟨s', extrapolate (push ⟨W, R, B, y :: t⟩ v).history R :: outs, ?_, hw, hfinal, hdims'⟩
      show (match accelerate ⟨W, R, B, y :: t⟩ v with
        | Except.error e => Except.error e
        | Except.ok s1 =>
          match runAA s1.1 vs with
          | Except.error e => Except.error e
          | Except.ok s2 => Except.ok (s2.1, s1.2 :: s2.2)) = _
      have hacc : accelerate ⟨W, R, B, y :: t⟩ v =
          Except.ok (push ⟨W, R, B, y :: t⟩ v, extrapolate (push ⟨W, R, B, y :: t⟩ v).history R) := by
        show (if v.length = y.length
            then Except.ok (push ⟨W, R, B, y :: t⟩ v, extrapolate (push ⟨W, R, B, y :: t⟩ v).history R)
            else Except.error AAErr.shapeError) = _
        rw [if_pos hy]
      rw [hacc]
      dsimp only
      rw [hrun]


/-! ### Weight-system helper lemmas -/

/-- On the nonsingular branch the computed weights solve the system exactly. -/
theorem zAux_exact (rs : List Vec) (reg : ℚ) (d p : ℕ)
    (hdet : (gramAux rs reg d p).det ≠ 0) :
    (gramAux rs reg d p).mulVec (zAux rs reg d p) = onesV p := by
  unfold zAux solveOrFallback
  rw [if_neg hdet, Matrix.mulVec_smul, Matrix.mulVec_cramer, smul_smul,
      inv_mul_cancel₀ hdet, one_smul]

/-- The Gram quadratic form splits as `‖Fz‖² + λ‖z‖²`. -/
theorem gram_quadratic (rs : List Vec) (reg : ℚ) (d p : ℕ) (z : Fin p → ℚ) :
    Matrix.dotProduct z ((gramAux rs reg d p).mulVec z)
      = Matrix.dotProduct ((FmatAux rs d p).mulVec z) ((FmatAux rs d p).mulVec z)
        + reg * Matrix.dotProduct z z := by
  unfold gramAux
  rw [Matrix.add_mulVec, Matrix.dotProduct_add, Matrix.smul_mulVec_assoc, Matrix.one_mulVec,
      Matrix.dotProduct_smul, smul_eq_mul, ← Matrix.mulVec_mulVec, Matrix.dotProduct_mulVec,
      Matrix.vecMul_transpose]

/-- Any exact solution of `G z = 1` with `λ ≥ 0` has positive coordinate sum:
`sum z = zᵀGz = ‖Fz‖² + λ‖z‖² ≥ 0`, and zero is impossible since `1 ≠ 0`. -/
theorem sum_z_pos (rs : List Vec) (reg : ℚ) (d p : ℕ) (z : Fin p → ℚ)
    (hreg : 0 ≤ reg) (hp : 0 < p)
    (hz : (gramAux rs reg d p).mulVec z = onesV p) :
    0 < ∑ j, z j := by
  have hsum : ∑ j, z j = Matrix.dotProduct z ((gramAux rs reg d p).mulVec z) := by
    rw [hz]
    unfold onesV Matrix.dotProduct
    simp
  have hq := gram_quadratic rs reg d p z
  have hF : 0 ≤ Matrix.dotProduct ((FmatAux rs d p).mulVec z) ((FmatAux rs d p).mulVec z) := by
    unfold Matrix.dotProduct
    exact Finset.sum_nonneg (fun i _ => mul_self_nonneg _)
  have hzn : 0 ≤ Matrix.dotProduct z z := by
    unfold Matrix.dotProduct
    exact Finset.sum_nonneg (fun i _ => mul_self_nonneg _)
  have hzz : 0 ≤ reg * Matrix.dotProduct z z := mul_nonneg hreg hzn
  by_contra hcon
  push_neg at hcon
  have hS0 : Matrix.dotProduct ((FmatAux rs d p).mulVec z) ((FmatAux rs d p).mulVec z) = 0
      ∧ reg * Matrix.dotProduct z z = 0 := by
    constructor <;> nlinarith [hsum, hq]
  have hA0 : (FmatAux rs d p).mulVec z = 0 := Matrix.dotProduct_self_eq_zero.mp hS0.1
  have hcontra : (gramAux rs reg d p).mulVec z = 0 := by
    rcases mul_eq_zero.mp hS0.2 with hr0 | hzz0
    · unfold gramAux
      rw [Matrix.add_mulVec, ← Matrix.mulVec_mulVec, hA0, Matrix.mulVec_zero,
          Matrix.smul_mulVec_assoc, Matrix.one_mulVec, hr0, zero_smul, add_zero]
    · have hz0 : z = 0 := Matrix.dotProduct_self_eq_zero.mp hzz0
      rw [hz0, Matrix.mulVec_zero]
  rw [hz] at hcontra
  have h1 : onesV p ⟨0, hp⟩ = 0 := by rw [hcontra]; rfl
  exact absurd h1 (by unfold onesV; norm_num)

/-- The normalized weights sum to one whenever `z` has nonzero sum. -/
theorem sum_alpha_of_sum_ne (rs : List Vec) (reg : ℚ) (d p : ℕ)
    (hs : (∑ k, zAux rs reg d p k) ≠ 0) :
    ∑ j, alphaAux rs reg d p j = 1 := by
  unfold alphaAux
  rw [← Finset.sum_div]
  exact div_self hs

/-- The normalized weights sum to one on the nonsingular branch. -/
theorem sum_alpha_of_det_ne (rs : List Vec) (reg : ℚ) (d p : ℕ)
    (hreg : 0 ≤ reg) (hp : 0 < p) (hdet : (gramAux rs reg d p).det ≠ 0) :
    ∑ j, alphaAux rs reg d p j = 1 := by
  apply sum_alpha_of_sum_ne
  exact ne_of_gt (sum_z_pos rs reg d p _ hreg hp (zAux_exact rs reg d p hdet))

/-! ### Fixed-point (constant history) helper lemmas -/

theorem vsub_self (x : Vec) : vsub x x = List.replicate x.length 0 := by
  induction x with
  | nil => rfl
  | cons a t ih =>
    show (a - a) :: vsub t t = _
    rw [sub_self, ih]
    rfl

theorem getD_replicate_zero (n i : ℕ) : (List.replicate n (0:ℚ)).getD i 0 = 0 := by
  rcases lt_or_le i n with h | h
  · rw [List.getD_eq_getElem _ _ (by simp [h]), List.getElem_replicate]
  · rw [List.getD_eq_default _ _ (by simp [h])]

theorem residuals_replicate (m : ℕ) (x : Vec) :
    residuals (List.replicate m x) = List.replicate (m - 1) (vsub x x) := by
  unfold residuals
  cases m with
  | zero => rfl
  | succ n =>
    rw [List.replicate_succ, List.tail_cons]
    show List.zipWith vsub (List.replicate n x) (List.replicate (n+1) x) = _
    simp

theorem FmatAux_zero_res (q : ℕ) (x : Vec) (d p : ℕ) :
    FmatAux (List.replicate q (vsub x x)) d p = 0 := by
  ext i j
  show ((List.replicate q (vsub x x)).getD (j:ℕ) []).getD (i:ℕ) 0 = 0
  rcases lt_or_le (j:ℕ) q with h | h
  · have houter : (List.replicate q (vsub x x)).getD (j:ℕ) [] = vsub x x := by
      rw [List.getD_eq_getElem _ _ (by simp [h]), List.getElem_replicate]
    rw [houter, vsub_self, getD_replicate_zero]
  · have houter : (List.replicate q (vsub x x)).getD (j:ℕ) [] = [] :=
      List.getD_eq_default _ _ (by simp [h])
    rw [houter]
    rfl

theorem gramAux_zero_res (q : ℕ) (x : Vec) (reg : ℚ) (d p : ℕ) :
    gramAux (List.replicate q (vsub x x)) reg d p = reg • (1 : Matrix (Fin p) (Fin p) ℚ) := by
  unfold gramAux
  rw [FmatAux_zero_res]
  simp

theorem map_range_getD_self (l : Vec) :
    (List.range l.length).map (fun i => l.getD i 0) = l := by
  apply List.ext_getElem (by simp)
  intro i h1 h2
  simp only [List.getElem_map, List.getElem_range]
  rw [List.getD_eq_getElem _ _ h2]

/-- With a constant history of at least two iterates and positive
regularization, the extrapolated output reproduces the common iterate. -/
theorem extrapolate_replicate (m : ℕ) (x : Vec) (reg : ℚ)
    (hreg : 0 < reg) (hm : 2 ≤ m) :
    extrapolate (List.replicate m x) reg = x := by
  unfold extrapolate
  have hres := residuals_replicate m x
  have hrc : residualCount (List.replicate m x) = m - 1 := by
    unfold residualCount
    rw [hres, List.length_replicate]
  have hvd : vdim (List.replicate m x) = x.length := by
    unfold vdim
    obtain ⟨n, rfl⟩ : ∃ n, m = n + 1 := ⟨m - 1, by omega⟩
    rw [List.replicate_succ]
    rfl
  have htail : (List.replicate m x).tail = List.replicate (m-1) x := by
    obtain ⟨n, rfl⟩ : ∃ n, m = n + 1 := ⟨m - 1, by omega⟩
    rw [List.replicate_succ, List.tail_cons]
    rfl
  rw [hres, hrc, hvd, htail]
  unfold extrapolateAux
  have hp : 0 < m - 1 := by omega
  have hsum : ∑ j, alphaAux (List.replicate (m-1) (vsub x x)) reg x.length (m-1) j = 1 := by
    apply sum_alpha_of_det_ne _ _ _ _ (le_of_lt hreg) hp
    rw [gramAux_zero_res, Matrix.det_smul, Matrix.det_one, mul_one]
    exact pow_ne_zero _ (ne_of_gt hreg)
  have hcoord : ∀ i : ℕ,
      (∑ j, alphaAux (List.replicate (m-1) (vsub x x)) reg x.length (m-1) j *
        ((List.replicate (m-1) x).getD (j : ℕ) []).getD i 0) = x.getD i 0 := by
    intro i
    have hx : ∀ j : Fin (m-1), (List.replicate (m-1) x).getD (j : ℕ) [] = x := by
      intro j
      rw [List.getD_eq_getElem _ _ (by simp [j.isLt]), List.getElem_replicate]
    calc (∑ j, alphaAux (List.replicate (m-1) (vsub x x)) reg x.length (m-1) j *
          ((List.replicate (m-1) x).getD (j : ℕ) []).getD i 0)
        = ∑ j, alphaAux (List.replicate (m-1) (vsub x x)) reg x.length (m-1) j * x.getD i 0 :=
          Finset.sum_congr rfl (fun j _ => by rw [hx j])
      _ = (∑ j, alphaAux (List.replicate (m-1) (vsub x x)) reg x.length (m-1) j) * x.getD i 0 := by
          rw [Finset.sum_mul]
      _ = x.getD i 0 := by rw [hsum, one_mul]
  calc (List.range x.length).map
        (fun i => ∑ j, alphaAux (List.replicate (m-1) (vsub x x)) reg x.length (m-1) j *
          ((List.replicate (m-1) x).getD (j : ℕ) []).getD i 0)
      = (List.range x.length).map (fun i => x.getD i 0) :=
        List.map_congr_left (fun i _ => hcoord i)
    _ = x := map_range_getD_self x

theorem evict_replicate (W k : ℕ) (x : Vec) (hW : 1 ≤ W) (hk : 2 ≤ k) :
    ∃ m, evict W (List.replicate k x) = List.replicate m x ∧ 2 ≤ m := by
  unfold evict
  rw [List.length_replicate]
  by_cases hc : W + 1 < k
  · refine ⟨k - 1, ?_, by omega⟩
    rw [if_pos hc]
    obtain ⟨n, rfl⟩ : ∃ n, k = n + 1 := ⟨k - 1, by omega⟩
    rw [List.replicate_succ, List.tail_cons]
    rfl
  · exact ⟨k, by rw [if_neg hc], hk⟩

/-- Main fixed-point invariant: starting from a constant history, a constant
input stream is returned unchanged and the history stays constant. -/
theorem runAA_fixed (x : Vec) : ∀ (n : ℕ) (s : AAState) (k : ℕ),
    s.history = List.replicate k x → 0 < s.reg → 1 ≤ s.window_size →
    ∃ s' k', runAA s (List.replicate n x) = Except.ok (s', List.replicate n x)
      ∧ s'.history = List.replicate k' x ∧ s'.reg = s.reg ∧ s'.window_size = s.window_size := by
  intro n
  induction n with
  | zero => exact fun s k hh _ _ => ⟨s, k, rfl, hh, rfl, rfl⟩
  | succ n ih =>
    intro s k hh hreg hW
    obtain ⟨W, R, B, H⟩ := s
    simp only at hh hreg hW
    subst hh
    cases k with
    | zero =>
      have hpush : (push ⟨W, R, B, List.replicate 0 x⟩ x).history = List.replicate 1 x := by
        show evict W ([] ++ [x]) = _
        unfold evict
        simp
      obtain ⟨s', k', hrun, hh', hr', hw'⟩ := ih (push ⟨W, R, B, List.replicate 0 x⟩ x) 1 hpush hreg hW
      refine ⟨s', k', ?_, hh', hr', hw'⟩
      rw [List.replicate_succ]
      show (match accelerate ⟨W, R, B, List.replicate 0 x⟩ x with
        | Except.error e => Except.error e
        | Except.ok s1 =>
          match runAA s1.1 (List.replicate n x) with
          | Except.error e => Except.error e
          | Except.ok s2 => Except.ok (s2.1, s1.2 :: s2.2)) = _
      show (match runAA (push ⟨W, R, B, List.replicate 0 x⟩ x) (List.replicate n x) with
          | Except.error e => Except.error e
          | Except.ok s2 => Except.ok (s2.1, x :: s2.2)) = _
      rw [hrun]
    | succ k0 =>
      have hnewh : (push ⟨W, R, B, List.replicate (k0+1) x⟩ x).history
          = evict W (List.replicate (k0+2) x) := by
        show evict W (List.replicate (k0+1) x ++ [x]) = _
        rw [← List.replicate_succ']
      obtain ⟨m, hm, hm2⟩ := evict_replicate W (k0+2) x hW (by omega)
      have hout : extrapolate (push ⟨W, R, B, List.replicate (k0+1) x⟩ x).history R = x := by
        rw [hnewh, hm]
        exact extrapolate_replicate m x R hreg hm2
      have hpush : (push ⟨W, R, B, List.replicate (k0+1) x⟩ x).history = List.replicate m x := by
        rw [hnewh, hm]
      obtain ⟨s', k', hrun, hh', hr', hw'⟩ := ih (push ⟨W, R, B, List.replicate (k0+1) x⟩ x) m hpush hreg hW
      refine ⟨s', k', ?_, hh', hr', hw'⟩
      rw [List.replicate_succ]
      have hacc : accelerate ⟨W, R, B, List.replicate (k0+1) x⟩ x =
          Except.ok (push ⟨W, R, B, List.replicate (k0+1) x⟩ x,
            extrapolate (push ⟨W, R, B, List.replicate (k0+1) x⟩ x).history R) := by
        show (if x.length = x.length
            then Except.ok (push ⟨W, R, B, List.replicate (k0+1) x⟩ x,
              extrapolate (push ⟨W, R, B, List.replicate (k0+1) x⟩ x).history R)
            else Except.error AAErr.shapeError) = _
        rw [if_pos rfl]
      show (match accelerate ⟨W, R, B, List.replicate (k0+1) x⟩ x with
        | Except.error e => Except.error e
        | Except.ok s1 =>
          match runAA s1.1 (List.replicate n x) with
          | Except.error e => Except.error e
          | Except.ok s2 => Except.ok (s2.1, s1.2 :: s2.2)) = _
      rw [hacc]
      dsimp only
      rw [hrun, hout]
      rfl


/-! ### Concrete evaluations used by counterexamples and witnesses -/

/-- Degenerate concrete call: with history `[[1], [1]]` and `λ = 0` the Gram
matrix is the `1 × 1` zero matrix; the pseudo-inverse fallback returns
`z = 0`, the normalization divides by zero, and the output collapses to
`[0]`. -/
theorem extrap_pair_eval : extrapolate [[(1:ℚ)],[1]] 0 = [0] := by
  unfold extrapolate
  rw [show residuals [[(1:ℚ)],[1]] = [[0]] by norm_num [residuals, vsub],
      show residualCount [[(1:ℚ)],[1]] = 1 by norm_num [residualCount, residuals, vsub],
      show vdim [[(1:ℚ)],[1]] = 1 by norm_num [vdim]]
  norm_num [extrapolateAux, alphaAux, zAux, gramAux, FmatAux, solveOrFallback,
    fallbackSolve, pinvApply, pinvL, rrefGo, pivotRow, matVecL, matMulL, transposeL,
    dotL, smulL, onesV, Matrix.det_fin_one, Matrix.mul_apply, Fin.sum_univ_one,
    List.finRange, List.range, List.range.loop, Matrix.one_apply]

/-- The degenerate combination weights of the call above sum to `0`, not `1`. -/
theorem alpha_pair_eval : (∑ j, alphaWeights [[(1:ℚ)],[1]] 0 j) = 0 := by
  unfold alphaWeights
  rw [show residuals [[(1:ℚ)],[1]] = [[0]] by norm_num [residuals, vsub],
      show residualCount [[(1:ℚ)],[1]] = 1 by norm_num [residualCount, residuals, vsub],
      show vdim [[(1:ℚ)],[1]] = 1 by norm_num [vdim]]
  norm_num [alphaAux, zAux, gramAux, FmatAux, solveOrFallback,
    fallbackSolve, pinvApply, pinvL, rrefGo, pivotRow, matVecL, matMulL, transposeL,
    dotL, smulL, onesV, Matrix.det_fin_one, Matrix.mul_apply, Fin.sum_univ_one,
    List.finRange, List.range, List.range.loop, Matrix.one_apply]

/-- A second call with the same iterate `[1]` and `λ = 0` returns `[0]`. -/
theorem accel_pair_eval :
    accelerate ⟨1, 0, 1, [[(1:ℚ)]]⟩ [1] = Except.ok (⟨1, 0, 1, [[1],[1]]⟩, [0]) := by
  norm_num [accelerate, push, evict]
  exact extrap_pair_eval

/-- The full two-call run with constant input `[1]` and `λ = 0`: the first
call passes through, the second returns `[0]` instead of `[1]`. -/
theorem run_pair_eval :
    runAA ⟨1, 0, 1, []⟩ [[(1:ℚ)],[1]] = Except.ok (⟨1, 0, 1, [[1],[1]]⟩, [[1],[0]]) := by
  have h1 : accelerate ⟨1, 0, 1, []⟩ [(1:ℚ)] = Except.ok (⟨1, 0, 1, [[1]]⟩, [1]) := by
    norm_num [accelerate, push, evict]
  simp [runAA, h1, accel_pair_eval]

/-- A nonsingular concrete Gram matrix: history `[[0], [1]]` at `λ = 0`. -/
theorem gram_det_01 : (gramMatrix [[(0:ℚ)],[1]] 0).det = 1 := by
  unfold gramMatrix
  rw [show residuals [[(0:ℚ)],[1]] = [[1]] by norm_num [residuals, vsub],
      show residualCount [[(0:ℚ)],[1]] = 1 by norm_num [residualCount, residuals, vsub],
      show vdim [[(0:ℚ)],[1]] = 1 by norm_num [vdim]]
  norm_num [gramAux, FmatAux, Matrix.det_fin_one, Matrix.mul_apply, Fin.sum_univ_one,
    Matrix.one_apply]


/-! ### Claim theorems -/

/-- C1: for every call to `accelerate` beyond the first (history nonempty, so
the updated history holds at least two iterates), the call succeeds and the
returned vector is the weighted combination `x̄ = Σ_i α_i · y_i` of the most
recent `len(history) − 1` stored iterates in oldest-to-newest order, where
the weights are `alphaWeights` — obtained by solving the regularized Gram
system `(FᵀF + λI) z = 1` (with pseudo-inverse fallback) and normalizing
`α = z / sum z`. -/
theorem claim1_accelerate_weighted_combination (s : AAState) (v : Vec)
    (hne : s.history ≠ []) (hlen : v.length = vdim s.history) :
    accelerate s v = Except.ok (push s v, extrapolate (push s v).history s.reg)
    ∧ (∀ i < vdim (push s v).history,
        (extrapolate (push s v).history s.reg).getD i 0
          = ∑ j, alphaWeights (push s v).history s.reg j *
              (((push s v).history.tail.getD (j : ℕ) []).getD i 0)) := by
  constructor
  · obtain ⟨W, R, B, H⟩ := s
    cases H with
    | nil => exact absurd rfl hne
    | cons y t =>
      show (if v.length = y.length
          then Except.ok (push ⟨W, R, B, y :: t⟩ v, extrapolate (push ⟨W, R, B, y :: t⟩ v).history R)
          else Except.error AAErr.shapeError) = _
      rw [if_pos (show v.length = y.length from hlen)]
  · intro i hi
    show (extrapolateAux (residuals (push s v).history) (push s v).history.tail s.reg
        (vdim (push s v).history) (residualCount (push s v).history)).getD i 0 = _
    unfold extrapolateAux
    rw [getD_map_range _ _ _ hi]
    rfl

/-- Witness for C1 at the concrete state with history `[[0]]` and input `[1]`. -/
theorem claim1_witness :
    accelerate ⟨2, 0, 1, [[(0:ℚ)]]⟩ [1]
      = Except.ok (push ⟨2, 0, 1, [[(0:ℚ)]]⟩ [1],
          extrapolate (push ⟨2, 0, 1, [[(0:ℚ)]]⟩ [1]).history 0) :=
  (claim1_accelerate_weighted_combination ⟨2, 0, 1, [[(0:ℚ)]]⟩ [1] (by simp) rfl).1

/-- C2: for every call to `accelerate` beyond the first, the residual matrix
`F` used on the updated history has exactly `len(history) − 1` columns, and
column `k` is the consecutive difference `y_(k+1) − y_k` of stored iterates. -/
theorem claim2_residual_matrix_columns (s : AAState) (v : Vec) (s' : AAState) (out : Vec)
    (hne : s.history ≠ []) (hok : accelerate s v = Except.ok (s', out)) :
    residualCount s'.history = s'.history.length - 1
    ∧ (∀ k < s'.history.length - 1,
        (residuals s'.history).getD k []
          = vsub (s'.history.getD (k+1) []) (s'.history.getD k []))
    ∧ ∀ (j : Fin (residualCount s'.history)) (i : Fin (vdim s'.history)),
        Fmat s'.history i j
          = (vsub (s'.history.getD ((j : ℕ)+1) []) (s'.history.getD (j : ℕ) [])).getD (i : ℕ) 0 := by
  refine ⟨residuals_length _, fun k hk => residuals_getD _ k hk, fun j i => ?_⟩
  show ((residuals s'.history).getD (j : ℕ) []).getD (i : ℕ) 0 = _
  have hj : (j : ℕ) < (residuals s'.history).length := j.isLt
  rw [residuals_length] at hj
  rw [residuals_getD _ _ hj]

/-- Witness for C2 at the call with history `[[1]]` and input `[1]`. -/
theorem claim2_witness :
    residualCount [[(1:ℚ)],[1]] = ([[(1:ℚ)],[1]] : List Vec).length - 1 :=
  (claim2_residual_matrix_columns ⟨1, 0, 1, [[(1:ℚ)]]⟩ [1] ⟨1, 0, 1, [[1],[1]]⟩ [0]
    (by simp) accel_pair_eval).1

/-- C3: on a freshly constructed accelerator, the first call returns its
input unchanged while recording it, leaving a history of length one. -/
theorem claim3_first_call_passthrough (w : ℤ) (r b : ℚ) (s₀ : AAState) (v : Vec)
    (hmk : mkAA w r b = Except.ok s₀) :
    ∃ s', accelerate s₀ v = Except.ok (s', v) ∧ s'.history = [v] := by
  obtain ⟨-, -, -, -, hs⟩ := mkAA_ok hmk
  subst hs
  refine ⟨push ⟨w.toNat, r, b, []⟩ v, rfl, ?_⟩
  show evict w.toNat ([] ++ [v]) = [v]
  unfold evict
  simp

/-- Witness for C3 with default-style hyperparameters and input `[7]`. -/
theorem claim3_witness :
    ∃ s', accelerate ⟨5, 0, 1, []⟩ [(7:ℚ)] = Except.ok (s', [7]) ∧ s'.history = [[7]] :=
  claim3_first_call_passthrough 5 0 1 ⟨5, 0, 1, []⟩ [(7:ℚ)] (by norm_num [mkAA, Int.toNat])

/-- C4: over any dimension-uniform input sequence, the run succeeds and the
final history is exactly the last `window_size + 1` inputs in insertion
order (FIFO suffix), so its length never exceeds `window_size + 1`. -/
theorem claim4_window_bound_fifo (w : ℤ) (r b : ℚ) (s₀ : AAState) (vs : List Vec) (d : ℕ)
    (hmk : mkAA w r b = Except.ok s₀) (hvs : ∀ v ∈ vs, v.length = d) :
    ∃ s' outs, runAA s₀ vs = Except.ok (s', outs)
      ∧ s'.history = lastN (s₀.window_size + 1) vs
      ∧ s'.history.length ≤ s₀.window_size + 1 := by
  obtain ⟨-, -, -, -, hs⟩ := mkAA_ok hmk
  subst hs
  obtain ⟨s', outs, hrun, -, hhist, -⟩ :=
    runAA_window d vs ⟨w.toNat, r, b, []⟩ (by simp) (by simp) hvs
  refine ⟨s', outs, hrun, ?_, ?_⟩
  · rw [hhist]
    rfl
  · rw [hhist]
    exact lastN_length_le _ _

/-- Witness for C4: three one-dimensional inputs through a window of size 1. -/
theorem claim4_witness :
    ∃ s' outs, runAA ⟨1, 0, 1, []⟩ [[(1:ℚ)], [2], [3]] = Except.ok (s', outs)
      ∧ s'.history = lastN 2 [[(1:ℚ)], [2], [3]]
      ∧ s'.history.length ≤ 2 :=
  claim4_window_bound_fifo 1 0 1 ⟨1, 0, 1, []⟩ [[(1:ℚ)], [2], [3]] 1
    (by norm_num [mkAA, Int.toNat]) (by simp)

/-- C5 counterexample: in the fully degenerate fallback call — history
`[[1], [1]]`, `λ = 0`, a real second call of `accelerate` — the Gram matrix
is singular, the pseudo-inverse fallback yields `z = 0`, and the computed
weights sum to `0`, not `1`. -/
theorem claim5_counterexample :
    accelerate ⟨1, 0, 1, [[(1:ℚ)]]⟩ [1] = Except.ok (⟨1, 0, 1, [[1],[1]]⟩, [0])
    ∧ (∑ j, alphaWeights [[(1:ℚ)],[1]] 0 j) = 0 ∧ ((0:ℚ) ≠ 1) :=
  ⟨accel_pair_eval, alpha_pair_eval, by norm_num⟩

/-- C5 (amended): for every call beyond the first, the combination weights
sum to 1 whenever the computed `z` has nonzero coordinate sum — in
particular whenever the Gram matrix is nonsingular, since then `z` solves
`G z = 1` exactly and `sum z = ‖Fz‖² + λ‖z‖² > 0`; only the fully
degenerate pseudo-inverse fallback (e.g. all residuals zero with `λ = 0`)
can produce weights that do not sum to 1. -/
theorem claim5_alpha_sum_amended (hist : List Vec) (reg : ℚ)
    (hreg : 0 ≤ reg) (hp : 0 < residualCount hist) :
    ((∑ k, zVec hist reg k) ≠ 0 → ∑ j, alphaWeights hist reg j = 1)
    ∧ ((gramMatrix hist reg).det ≠ 0 → ∑ j, alphaWeights hist reg j = 1) := by
  constructor
  · intro hs
    exact sum_alpha_of_sum_ne (residuals hist) reg (vdim hist) (residualCount hist) hs
  · intro hdet
    exact sum_alpha_of_det_ne (residuals hist) reg (vdim hist) (residualCount hist) hreg hp hdet

/-- Witness for C5 (amended) at the nonsingular history `[[0], [1]]`. -/
theorem claim5_witness : ∑ j, alphaWeights [[(0:ℚ)],[1]] 0 j = 1 :=
  (claim5_alpha_sum_amended [[(0:ℚ)],[1]] 0 (by norm_num)
    (by norm_num [residualCount, residuals, vsub])).2 (by rw [gram_det_01]; norm_num)

/-- C6 counterexample: with `λ = 0` and the constant input `[1]`, the second
call returns `[0]` instead of the fixed point `[1]` — the degenerate solve
does not reproduce `x*`. -/
theorem claim6_counterexample :
    runAA ⟨1, 0, 1, []⟩ [[(1:ℚ)],[1]] = Except.ok (⟨1, 0, 1, [[1],[1]]⟩, [[1],[0]])
    ∧ ([(0:ℚ)] : Vec) ≠ [(1:ℚ)] :=
  ⟨run_pair_eval, by norm_num⟩

/-- C6 (amended): if the regularization is positive, then feeding the same
vector `x*` to every call makes every call return `x*`: all residuals are
zero, the Gram matrix is `λI`, and the solve yields uniform weights
reproducing `x*`.  (With `λ = 0` the degenerate fallback breaks this; see
the counterexample.) -/
theorem claim6_fixed_point_amended (w : ℤ) (r b : ℚ) (s₀ : AAState) (x : Vec) (n : ℕ)
    (hmk : mkAA w r b = Except.ok s₀) (hreg : 0 < r) :
    ∃ s', runAA s₀ (List.replicate n x) = Except.ok (s', List.replicate n x) := by
  obtain ⟨hw, -, -, -, hs⟩ := mkAA_ok hmk
  subst hs
  obtain ⟨s', k', hrun, -, -, -⟩ :=
    runAA_fixed x n ⟨w.toNat, r, b, []⟩ 0 rfl hreg (show 1 ≤ w.toNat by omega)
  exact ⟨s', hrun⟩

/-- Witness for C6 (amended): three constant calls with `λ = 1`. -/
theorem claim6_witness :
    ∃ s', runAA ⟨1, 1, 1, []⟩ (List.replicate 3 [(2:ℚ)])
      = Except.ok (s', List.replicate 3 [(2:ℚ)]) :=
  claim6_fixed_point_amended 1 1 1 ⟨1, 1, 1, []⟩ [(2:ℚ)] 3
    (by norm_num [mkAA, Int.toNat]) (by norm_num)

/-- C7: numerical degeneracy is never surfaced — on any dimension-consistent
input the call returns `ok` with a well-formed vector of the established
dimension, even when the Gram matrix is singular (the pseudo-inverse
fallback handles it internally, and in this exact-arithmetic model every
returned value is finite by construction). -/
theorem claim7_degeneracy_recovered (s : AAState) (v : Vec)
    (h : ∀ y ∈ s.history, y.length = v.length) :
    ∃ s' out, accelerate s v = Except.ok (s', out) ∧ out.length = v.length := by
  obtain ⟨W, R, B, H⟩ := s
  cases H with
  | nil => exact ⟨push ⟨W, R, B, []⟩ v, v, rfl, rfl⟩
  | cons y t =>
    have hy : y.length = v.length := h y (List.mem_cons_self y t)
    refine ⟨push ⟨W, R, B, y :: t⟩ v, extrapolate (push ⟨W, R, B, y :: t⟩ v).history R, ?_, ?_⟩
    · show (if v.length = y.length
          then Except.ok (push ⟨W, R, B, y :: t⟩ v, extrapolate (push ⟨W, R, B, y :: t⟩ v).history R)
          else Except.error AAErr.shapeError) =
        Except.ok (push ⟨W, R, B, y :: t⟩ v, extrapolate (push ⟨W, R, B, y :: t⟩ v).history R)
      rw [if_pos hy.symm]
    · rw [extrapolate_length]
      apply vdim_of_all _ v.length
      · show evict W ((y :: t) ++ [v]) ≠ []
        unfold evict
        split
        · simp
        · simp
      · intro z hz
        have hz' : z ∈ (y :: t) ++ [v] := evict_subset _ _ hz
        rcases List.mem_append.mp hz' with hz1 | hz2
        · exact h z hz1
        · simp at hz2; rw [hz2]

/-- Witness for C7 at the singular-Gram call (`λ = 0`, repeated iterate). -/
theorem claim7_witness :
    ∃ s' out, accelerate ⟨1, 0, 1, [[(1:ℚ)]]⟩ [1] = Except.ok (s', out)
      ∧ out.length = ([(1:ℚ)] : Vec).length :=
  claim7_degeneracy_recovered ⟨1, 0, 1, [[(1:ℚ)]]⟩ [1] (by simp)

/-- C8: once the dimension is established, a vector of a different dimension
raises `ShapeError`, while a vector of the established dimension is
accepted. -/
theorem claim8_shape_error (s : AAState) (v : Vec) (hne : s.history ≠ []) :
    (v.length ≠ vdim s.history → accelerate s v = Except.error AAErr.shapeError)
    ∧ (v.length = vdim s.history → ∃ r, accelerate s v = Except.ok r) := by
  obtain ⟨W, R, B, H⟩ := s
  cases H with
  | nil => exact absurd rfl hne
  | cons y t =>
    have hd : vdim (y :: t) = y.length := rfl
    constructor
    · intro hv
      show (if v.length = y.length then _ else _) = _
      rw [if_neg (by rw [← hd]; exact hv)]
    · intro hv
      refine ⟨(push ⟨W, R, B, y :: t⟩ v, extrapolate (push ⟨W, R, B, y :: t⟩ v).history R), ?_⟩
      show (if v.length = y.length
          then Except.ok (push ⟨W, R, B, y :: t⟩ v, extrapolate (push ⟨W, R, B, y :: t⟩ v).history R)
          else Except.error AAErr.shapeError) = _
      rw [if_pos (by rw [← hd]; exact hv)]

/-- Witness for C8: a 2-dimensional input against a 1-dimensional history. -/
theorem claim8_witness :
    accelerate ⟨1, 0, 1, [[(1:ℚ)]]⟩ [1, 2] = Except.error AAErr.shapeError :=
  (claim8_shape_error ⟨1, 0, 1, [[(1:ℚ)]]⟩ [1, 2] (by simp)).1 (by norm_num [vdim])

/-- C9: construction rejects `window_size < 1`, `regularization < 0` and
`mixing_parameter` outside `[0, 1]` with `ConfigurationError`; valid
hyperparameters construct a state carrying exactly those values, and
`accelerate` never changes them afterwards. -/
theorem claim9_construction_validation (w : ℤ) (r b : ℚ) :
    (mkAA w r b = Except.error AAErr.configurationError ↔ (w < 1 ∨ r < 0 ∨ b < 0 ∨ 1 < b))
    ∧ (1 ≤ w → 0 ≤ r → 0 ≤ b → b ≤ 1 → mkAA w r b = Except.ok ⟨w.toNat, r, b, []⟩)
    ∧ (∀ (s s' : AAState) (v out : Vec), accelerate s v = Except.ok (s', out) →
        s'.window_size = s.window_size ∧ s'.reg = s.reg ∧ s'.beta = s.beta) := by
  refine ⟨?_, ?_, ?_⟩
  · unfold mkAA
    split
    · rename_i hc
      simp [hc]
    · rename_i hc
      simp [hc]
  · intro h1 h2 h3 h4
    unfold mkAA
    rw [if_neg (by push_neg; exact ⟨h1, h2, h3, h4⟩)]
  · intro s s' v out hok
    obtain ⟨W, R, B, H⟩ := s
    have hs' : s' = push ⟨W, R, B, H⟩ v := by
      cases H with
      | nil =>
        injection hok with h'
        rw [(Prod.mk.injEq _ _ _ _).mp h' |>.1]
      | cons y t =>
        by_cases hv : v.length = y.length
        · have hacc : accelerate ⟨W, R, B, y :: t⟩ v =
              Except.ok (push ⟨W, R, B, y :: t⟩ v,
                extrapolate (push ⟨W, R, B, y :: t⟩ v).history R) := by
            show (if v.length = y.length
                then Except.ok (push ⟨W, R, B, y :: t⟩ v,
                  extrapolate (push ⟨W, R, B, y :: t⟩ v).history R)
                else Except.error AAErr.shapeError) = _
            rw [if_pos hv]
          rw [hacc] at hok
          injection hok with h'
          rw [(Prod.mk.injEq _ _ _ _).mp h' |>.1]
        · have hacc : accelerate ⟨W, R, B, y :: t⟩ v = Except.error AAErr.shapeError := by
            show (if v.length = y.length then _ else _) = _
            rw [if_neg hv]
          rw [hacc] at hok
          exact absurd hok (by simp)
    subst hs'
    exact ⟨rfl, rfl, rfl⟩

/-- Witness for C9: a valid construction with `w = 2`, `λ = 1`, `β = 1`. -/
theorem claim9_witness : mkAA 2 1 1 = Except.ok ⟨(2:ℤ).toNat, 1, 1, []⟩ :=
  (claim9_construction_validation 2 1 1).2.1 (by norm_num) (by norm_num) (by norm_num) (by norm_num)

/-- C10: constructing with the `reg` argument omitted behaves, over every
subsequent sequence of calls, exactly like constructing with regularization
`0`, and constructing with `window_size` omitted behaves exactly like
`window_size = 5` — the README's documented constructor defaults. -/
theorem claim10_constructor_defaults (w : ℤ) (r : ℚ) (vs : List Vec) :
    runFrom (mkOmitReg w) vs = runFrom (mkAA w 0 defaultMixing) vs
    ∧ runFrom (mkOmitWindow r) vs = runFrom (mkAA 5 r defaultMixing) vs :=
  ⟨rfl, rfl⟩

end AndersonAccel
